import Mathlib

/-!
Verification of the remote-path resolution and transfer-planning layer of the
osfclient/rdmclient command-line OSF client.

Strings are modelled as `List Char`; the Python functions of
`osfclient/utils.py` and `osfclient/cli.py` are embedded as executable Lean
functions over that representation.  Remote path separators are `'/'` as in
POSIX (`os.path.sep`), and `os.path.normpath` is embedded faithfully,
including the POSIX special case that exactly two leading slashes are
preserved.
-/

namespace Osf

/-- Convert a string literal to the `List Char` representation used throughout. -/
def chars (s : String) : List Char := s.data

/-- The component `"."`. -/
def dotC : List Char := ['.']

/-- The component `".."`. -/
def ddot : List Char := ['.', '.']

/-- Number of initial slashes kept by `posixpath.normpath`: `2` for exactly two
leading slashes (POSIX-reserved), `1` for any other absolute path, `0` for a
relative path. -/
def initialSlashes (p : List Char) : Nat :=
  if ['/'].isPrefixOf p then
    if ['/', '/'].isPrefixOf p ∧ ¬ (['/', '/', '/'].isPrefixOf p) then 2 else 1
  else 0

/-- The component-collapsing loop of `posixpath.normpath`: empty and `"."`
components are dropped, `".."` cancels a previous real component, and `".."`
is kept only at the start of a relative path or after a kept `".."`. -/
def collapseGo (hasRoot : Bool) (acc : List (List Char)) :
    List (List Char) → List (List Char)
  | [] => acc
  | comp :: comps =>
    if comp = [] ∨ comp = dotC then
      collapseGo hasRoot acc comps
    else if comp ≠ ddot ∨ (hasRoot = false ∧ acc = []) ∨ acc.getLast? = some ddot then
      collapseGo hasRoot (acc ++ [comp]) comps
    else if acc ≠ [] then
      collapseGo hasRoot acc.dropLast comps
    else
      collapseGo hasRoot acc comps

/-- `posixpath.normpath`. -/
def normpath (p : List Char) : List Char :=
  if p = [] then dotC
  else
    let n := initialSlashes p
    let newComps := collapseGo (n != 0) [] (p.splitOn '/')
    let q := List.replicate n '/' ++ ['/'].intercalate newComps
    if q = [] then dotC else q

/-- `osfclient.utils.norm_remote_path`: `os.path.normpath` followed by
stripping one leading separator. -/
def norm_remote_path (p : List Char) : List Char :=
  let q := normpath p
  if ['/'].isPrefixOf q then q.drop 1 else q

/-- The built-in `KNOWN_PROVIDERS` list of `osfclient/utils.py`. -/
def KNOWN_PROVIDERS : List (List Char) :=
  [chars "osfstorage", chars "github", chars "figshare", chars "googledrive"]

/-- The provider list actually scanned by `split_storage`: the comma-separated
`KNOWN_PROVIDERS` environment override if present, else the built-in list. -/
def knownOf (envKnown : Option (List Char)) : List (List Char) :=
  match envKnown with
  | some s => s.splitOn ','
  | none => KNOWN_PROVIDERS

/-- `osfclient.utils.split_storage`.  After optional normalization, the first
provider in the list whose name followed by `/` prefixes the path causes
`path.split('/', maxsplit=1)` to be returned; otherwise the default provider
is returned with the path unchanged. -/
def split_storage (path : List Char) (dflt : List Char := chars "osfstorage")
    (normalize : Bool := true) (envKnown : Option (List Char) := none) :
    List Char × List Char :=
  let path := if normalize then norm_remote_path path else path
  match (knownOf envKnown).find? (fun provider => (provider ++ ['/']).isPrefixOf path) with
  | some _ => (path.takeWhile (· ≠ '/'), (path.dropWhile (· ≠ '/')).drop 1)
  | none => (dflt, path)

example : norm_remote_path (chars "foo/bar/baz.txt") = chars "foo/bar/baz.txt" := by decide
example : norm_remote_path (chars "/foo/bar/baz.txt") = chars "foo/bar/baz.txt" := by decide
example : norm_remote_path (chars "osfstorage/foo/bar/baz/") = chars "osfstorage/foo/bar/baz" := by
  decide
example : norm_remote_path (chars "a/./b/../c") = chars "a/c" := by decide
example : norm_remote_path (chars "//a") = chars "/a" := by decide
example : norm_remote_path (chars "/") = chars "" := by decide
example : split_storage (chars "osfstorage/foo/bar") = (chars "osfstorage", chars "foo/bar") := by
  decide
example : split_storage (chars "unknown/foo") = (chars "osfstorage", chars "unknown/foo") := by
  decide
example : split_storage (chars "/github/foo/bar/baz") = (chars "github", chars "foo/bar/baz") := by
  decide
example :
    split_storage (chars "figshare/foo") (chars "osfstorage") true (some (chars "osfstorage,s3,github")) =
      (chars "osfstorage", chars "figshare/foo") := by decide
example :
    split_storage (chars "s3/foo") (chars "osfstorage") true (some (chars "osfstorage,s3,github")) =
      (chars "s3", chars "foo") := by decide
example :
    split_storage (chars "osfstorage/foo/bar/baz/") (chars "osfstorage") false none =
      (chars "osfstorage", chars "foo/bar/baz/") := by decide

/-- One iteration body of the matching loop of
`osfclient.utils.is_path_matched`: how one pattern segment is matched against
one path segment (`%text%` substring, `%text` suffix, `text%` prefix,
otherwise equality). -/
def segMatch (tseg fseg : List Char) : Bool :=
  if tseg.head? = some '%' ∧ tseg.getLast? = some '%' then
    decide ((tseg.drop 1).dropLast <:+: fseg)
  else if tseg.head? = some '%' then
    (tseg.drop 1).isSuffixOf fseg
  else if tseg.getLast? = some '%' then
    tseg.dropLast.isPrefixOf fseg
  else tseg == fseg

/-- The `for`/`zip` loop of `is_path_matched`: walk the paired segments,
return `false` at the first per-segment mismatch, `true` once either list is
exhausted. -/
def matchSegs : List (List Char) → List (List Char) → Bool
  | [], _ => true
  | _ :: _, [] => true
  | tseg :: tsegs, fseg :: fsegs =>
    if segMatch tseg fseg then matchSegs tsegs fsegs else false

/-- Dropping the trailing empty segment (`segs[-1] == ''`) as done on both
sides in `is_path_matched`. -/
def dropTrailingEmpty (segs : List (List Char)) : List (List Char) :=
  if segs.getLast? = some [] then segs.dropLast else segs

/-- `osfclient.utils.is_path_matched` with the file object replaced by its
`materialized_path`; a `none` pattern matches everything. -/
def is_path_matched (target_file_path : Option (List Char)) (file_path : List Char) : Bool :=
  match target_file_path with
  | none => true
  | some t =>
    matchSegs (dropTrailingEmpty (t.splitOn '/')) (dropTrailingEmpty (file_path.splitOn '/'))

example : is_path_matched none (chars "p1/") = true := by decide
example : is_path_matched (some (chars "p1/")) (chars "p1/") = true := by decide
example : is_path_matched (some (chars "p1/")) (chars "p2/") = false := by decide
example : is_path_matched (some (chars "p1/p2/")) (chars "p1/p2/") = true := by decide
example : is_path_matched (some (chars "p1/")) (chars "p1/p2/") = true := by decide
example : is_path_matched (some (chars "p1/p2/")) (chars "p1/") = true := by decide
example : is_path_matched (some (chars "p1/p2/")) (chars "p1/-p2/") = false := by decide
example : is_path_matched (some (chars "p1/%p2/")) (chars "p1/-p2/") = true := by decide
example : is_path_matched (some (chars "p1/%p2/")) (chars "p1/-p2-/") = false := by decide
example : is_path_matched (some (chars "p1/%p2%/")) (chars "p1/-p2-/") = true := by decide
example : is_path_matched (some (chars "p1/%p2/")) (chars "p1/-p2/p3/") = true := by decide

/-- The target-path classification of `osfclient.cli.move` (after
`split_storage(args.target, normalize=False)`): returns
`(target_folder_path, target_filename)`, where `none` stands for Python
`None`. -/
def moveClassify (target_path : List Char) : Option (List Char) × Option (List Char) :=
  if target_path.getLast? = some '/' then
    (some target_path.dropLast, none)
  else if '/' ∈ target_path then
    let sep := target_path.indexOf '/'
    (some (target_path.take sep), some (target_path.drop (sep + 1)))
  else if target_path = [] then
    (none, none)
  else
    (none, some target_path)

example : moveClassify (chars "c/") = (some (chars "c"), none) := by decide
example : moveClassify (chars "c/c/") = (some (chars "c/c"), none) := by decide
example : moveClassify (chars "c/newfile") = (some (chars "c"), some (chars "newfile")) := by decide
example : moveClassify (chars "") = (none, none) := by decide
example : moveClassify (chars "newfile") = (none, some (chars "newfile")) := by decide

/-- A folder-creation call issued by `_ensure_folder`: the parent
(`none` = the storage root, `some p` = the folder ensured at path `p`) and the
`path` argument passed to `create_folder`. -/
abbrev CreateCall := Option (List Char) × List Char

/-- `osfclient.cli._ensure_folder`, instrumented: `folders` is the list of
(materialized) paths of the folders currently known to the storage; returns
the path of the resulting folder together with the ordered list of
`create_folder` calls issued. -/
def ensure_folder (folders : List (List Char)) (path : List Char) :
    List Char × List CreateCall :=
  if folders.any (fun f => norm_remote_path f == path) then
    (path, [])
  else if hs : '/' ∈ path then
    let i := path.indexOf '/'
    let parent := ensure_folder folders (path.take i)
    let rest := path.drop (i + 1)
    (parent.1 ++ '/' :: rest, parent.2 ++ [(some parent.1, rest)])
  else
    (path, [(none, path)])
termination_by path.length
decreasing_by
  simp only [List.length_take]
  have hlt : path.indexOf '/' < path.length := List.indexOf_lt_length.mpr hs
  omega

/-- Unfolding lemma for `ensure_folder`: a folder with the requested
normalized path already exists. -/
theorem ensure_folder_found (folders : List (List Char)) (path : List Char)
    (h : folders.any (fun f => norm_remote_path f == path) = true) :
    ensure_folder folders path = (path, []) := by
  rw [ensure_folder, if_pos h]

/-- Unfolding lemma for `ensure_folder`: no folder matches and the path
contains a separator, so the part before the first separator is ensured
recursively and the remainder is created under it. -/
theorem ensure_folder_sep (folders : List (List Char)) (path : List Char)
    (h1 : ¬ folders.any (fun f => norm_remote_path f == path) = true)
    (h2 : '/' ∈ path) :
    ensure_folder folders path =
      ((ensure_folder folders (path.take (path.indexOf '/'))).1 ++
          '/' :: path.drop (path.indexOf '/' + 1),
        (ensure_folder folders (path.take (path.indexOf '/'))).2 ++
          [(some (ensure_folder folders (path.take (path.indexOf '/'))).1,
            path.drop (path.indexOf '/' + 1))]) := by
  rw [ensure_folder, if_neg h1, dif_pos h2]

/-- Unfolding lemma for `ensure_folder`: no folder matches and the path has no
separator, so it is created directly under the storage. -/
theorem ensure_folder_leaf (folders : List (List Char)) (path : List Char)
    (h1 : ¬ folders.any (fun f => norm_remote_path f == path) = true)
    (h2 : '/' ∉ path) :
    ensure_folder folders path = (path, [(none, path)]) := by
  rw [ensure_folder, if_neg h1, dif_neg h2]

example : ensure_folder [chars "/a"] (chars "a") = (chars "a", []) :=
  ensure_folder_found _ _ (by decide)

example : ensure_folder [chars "/a"] (chars "a/new") =
    (chars "a/new", [(some (chars "a"), chars "new")]) := by
  rw [ensure_folder_sep _ _ (by decide) (by decide)]
  have ht : (chars "a/new").take ((chars "a/new").indexOf '/') = chars "a" := by decide
  rw [ht, ensure_folder_found _ _ (by decide)]
  decide

example : ensure_folder [] (chars "a/new") =
    (chars "a/new", [(none, chars "a"), (some (chars "a"), chars "new")]) := by
  rw [ensure_folder_sep _ _ (by decide) (by decide)]
  have ht : (chars "a/new").take ((chars "a/new").indexOf '/') = chars "a" := by decide
  rw [ht, ensure_folder_leaf _ _ (by decide) (by decide)]
  decide

/-- The file loop of `osfclient.cli.remove`: every file whose normalized path
equals `remote_path` receives a `remove()` call; the paths of the files acted
on are returned in order. -/
def removeLoop (remote_path : List Char) : List (List Char) → List (List Char)
  | [] => []
  | p :: ps =>
    if norm_remote_path p = remote_path then p :: removeLoop remote_path ps
    else removeLoop remote_path ps

/-- The file loop of `osfclient.cli.move`: every file whose normalized path
equals `remote_path` receives a `move_to(...)` call; the paths of the files
acted on are returned in order. -/
def moveLoop (remote_path : List Char) : List (List Char) → List (List Char)
  | [] => []
  | p :: ps =>
    if norm_remote_path p = remote_path then p :: moveLoop remote_path ps
    else moveLoop remote_path ps

/-- A remote file as seen by `fetch`: its (materialized) path and its optional
md5 hash (the `md5` entry of `file_.hashes`). -/
structure RFile where
  path : List Char
  md5 : Option (List Char)
deriving DecidableEq

/-- Observable events of a `fetch` invocation, in order. -/
inductive FEvent where
  | exitNotOverwriting
  | network
  | printMatches
  | write
deriving DecidableEq

/-- The file loop of `osfclient.cli.fetch`: the first file whose normalized
path equals `remote_path` is fetched (with the `--update` hash comparison
skipping the write when the remote md5 equals the local checksum), and the
loop breaks. -/
def fetchLoop (localExists force update : Bool) (remote_path localMd5 : List Char) :
    List RFile → List FEvent
  | [] => []
  | f :: fs =>
    if norm_remote_path f.path = remote_path then
      if localExists = true ∧ force = false ∧ update = true ∧ f.md5 = some localMd5 then
        [FEvent.printMatches]
      else
        [FEvent.write]
    else fetchLoop localExists force update remote_path localMd5 fs

/-- `osfclient.cli.fetch`, as the ordered list of its observable events:
the fail-fast exit happens before any network access; otherwise the project
and storage are fetched over the network and the file loop runs. -/
def fetchEvents (localExists force update : Bool) (files : List RFile)
    (remote_path localMd5 : List Char) : List FEvent :=
  if localExists = true ∧ force = false ∧ update = false then
    [FEvent.exitNotOverwriting]
  else
    FEvent.network :: fetchLoop localExists force update remote_path localMd5 files

example : fetchEvents true false false [⟨chars "/a", none⟩] (chars "a") (chars "h") =
    [FEvent.exitNotOverwriting] := by decide
example : fetchEvents true true false [⟨chars "/a", none⟩] (chars "a") (chars "h") =
    [FEvent.network, FEvent.write] := by decide
example : fetchEvents true false true [⟨chars "/a", some (chars "h")⟩] (chars "a") (chars "h") =
    [FEvent.network, FEvent.printMatches] := by decide
example : fetchEvents true false true [⟨chars "/a", some (chars "g")⟩] (chars "a") (chars "h") =
    [FEvent.network, FEvent.write] := by decide

/-- The leading-slash strip of `osfclient.cli.list_`
(`if base_path.startswith('/'): base_path = base_path[1:]`). -/
def stripSlash (l : List Char) : List Char :=
  if ['/'].isPrefixOf l then l.drop 1 else l

/-- The base-path handling of `osfclient.cli.list_`: strip one leading slash,
then `base_path.index('/')` (a `ValueError`, modelled as `none`, when there is
no separator), take the pattern from that index on, extend it to end with a
separator, and take the provider as the part before the first separator. -/
def listDerive (base_path : List Char) : Option (List Char × List Char) :=
  if '/' ∈ stripSlash base_path then
    some ((stripSlash base_path).takeWhile (· ≠ '/'),
      if ((stripSlash base_path).drop
            ((stripSlash base_path).indexOf '/')).getLast? = some '/' then
        (stripSlash base_path).drop ((stripSlash base_path).indexOf '/')
      else
        (stripSlash base_path).drop ((stripSlash base_path).indexOf '/') ++ ['/'])
  else
    none

example : listDerive (chars "osfstorage") = none := by decide
example : listDerive (chars "/osfstorage") = none := by decide
example : listDerive (chars "osfstorage/foo") = some (chars "osfstorage", chars "/foo/") := by
  decide
example : listDerive (chars "osfstorage/foo/") = some (chars "osfstorage", chars "/foo/") := by
  decide

/-! ### Auxiliary facts about `normpath`

The component list produced by the collapsing loop of `normpath` consists of
nonempty components other than `"."` that contain no separator, and all kept
`".."` components form a prefix of the list.  On such lists the loop is the
identity, which yields the conditional idempotence of `norm_remote_path`. -/

/-- No component of the list is `".."`. -/
def NoDots : List (List Char) → Prop
  | [] => True
  | c :: cs => c ≠ ddot ∧ NoDots cs

/-- Every component of the list is `".."`. -/
def AllDots : List (List Char) → Prop
  | [] => True
  | c :: cs => c = ddot ∧ AllDots cs

/-- The `".."` components form a prefix of the list. -/
def DotsPre : List (List Char) → Prop
  | [] => True
  | c :: cs => (c = ddot ∧ DotsPre cs) ∨ (c ≠ ddot ∧ NoDots cs)

theorem noDots_append1 {l : List (List Char)} {c : List Char}
    (h : NoDots l) (hc : c ≠ ddot) : NoDots (l ++ [c]) := by
  induction l with
  | nil => exact ⟨hc, trivial⟩
  | cons a as ih => exact ⟨h.1, ih h.2⟩

theorem noDots_dropLast {l : List (List Char)} (h : NoDots l) : NoDots l.dropLast := by
  induction l with
  | nil => trivial
  | cons a as ih =>
    cases as with
    | nil => trivial
    | cons b bs => exact ⟨h.1, ih h.2⟩

theorem noDots_dotsPre {l : List (List Char)} (h : NoDots l) : DotsPre l := by
  cases l with
  | nil => trivial
  | cons a as => exact Or.inr ⟨h.1, h.2⟩

theorem allDots_dotsPre {l : List (List Char)} (h : AllDots l) : DotsPre l := by
  induction l with
  | nil => trivial
  | cons a as ih => exact Or.inl ⟨h.1, ih h.2⟩

theorem allDots_append1 {l : List (List Char)} (h : AllDots l) : AllDots (l ++ [ddot]) := by
  induction l with
  | nil => exact ⟨rfl, trivial⟩
  | cons a as ih => exact ⟨h.1, ih h.2⟩

theorem allDots_getLast {l : List (List Char)} (h : AllDots l) (hne : l ≠ []) :
    l.getLast? = some ddot := by
  induction l with
  | nil => exact absurd rfl hne
  | cons a as ih =>
    cases as with
    | nil => simpa [List.getLast?] using h.1
    | cons b bs =>
      rw [List.getLast?_cons_cons]
      exact ih h.2 (by simp)

theorem noDots_not_mem_ddot {l : List (List Char)} (h : NoDots l) : ddot ∉ l := by
  induction l with
  | nil => simp
  | cons a as ih =>
    intro hmem
    rcases List.mem_cons.mp hmem with h1 | h2
    · exact h.1 h1.symm
    · exact ih h.2 h2

theorem mem_of_getLast?_eq {l : List (List Char)} {x : List Char}
    (h : l.getLast? = some x) : x ∈ l := by
  induction l with
  | nil => simp at h
  | cons a as ih =>
    cases as with
    | nil =>
      have : a = x := by simpa [List.getLast?] using h
      simp [this]
    | cons b bs =>
      rw [List.getLast?_cons_cons] at h
      exact List.mem_cons_of_mem _ (ih h)

theorem mem_dropLast {l : List (List Char)} {c : List Char}
    (h : c ∈ l.dropLast) : c ∈ l := by
  induction l with
  | nil => exact absurd h (by simp)
  | cons a as ih =>
    cases as with
    | nil => simp at h
    | cons b bs =>
      rcases List.mem_cons.mp h with h1 | h2
      · exact h1 ▸ List.mem_cons_self _ _
      · exact List.mem_cons_of_mem _ (ih h2)

theorem dotsPre_getLast_ddot {l : List (List Char)}
    (h : DotsPre l) (hl : l.getLast? = some ddot) : AllDots l := by
  induction l with
  | nil => trivial
  | cons a as ih =>
    cases as with
    | nil =>
      have : a = ddot := by simpa [List.getLast?] using hl
      exact ⟨this, trivial⟩
    | cons b bs =>
      rw [List.getLast?_cons_cons] at hl
      rcases h with ⟨ha, hpre⟩ | ⟨_, hnd⟩
      · exact ⟨ha, ih hpre hl⟩
      · exact absurd (mem_of_getLast?_eq hl) (noDots_not_mem_ddot hnd)

theorem dotsPre_append1 {l : List (List Char)} {c : List Char}
    (h : DotsPre l) (hc : c ≠ ddot) : DotsPre (l ++ [c]) := by
  induction l with
  | nil => exact Or.inr ⟨hc, trivial⟩
  | cons a as ih =>
    rcases h with ⟨ha, hpre⟩ | ⟨ha, hnd⟩
    · exact Or.inl ⟨ha, ih hpre⟩
    · exact Or.inr ⟨ha, noDots_append1 hnd hc⟩

theorem dotsPre_dropLast {l : List (List Char)} (h : DotsPre l) : DotsPre l.dropLast := by
  induction l with
  | nil => trivial
  | cons a as ih =>
    cases as with
    | nil => trivial
    | cons b bs =>
      rcases h with ⟨ha, hpre⟩ | ⟨ha, hnd⟩
      · exact Or.inl ⟨ha, ih hpre⟩
      · exact Or.inr ⟨ha, noDots_dropLast hnd⟩

/-- The collapsing loop preserves the component invariants: every kept
component is nonempty, not `"."`, separator-free, and the kept `".."`
components form a prefix. -/
theorem collapseGo_inv (h : Bool) (comps : List (List Char)) :
    ∀ acc, DotsPre acc → (∀ c ∈ acc, c ≠ [] ∧ c ≠ dotC ∧ '/' ∉ c) →
      (∀ c ∈ comps, '/' ∉ c) →
      DotsPre (collapseGo h acc comps) ∧
        ∀ c ∈ collapseGo h acc comps, c ≠ [] ∧ c ≠ dotC ∧ '/' ∉ c := by
  induction comps with
  | nil => intro acc h1 h2 _; exact ⟨h1, h2⟩
  | cons comp comps ih =>
    intro acc h1 h2 h3
    rw [collapseGo]
    split_ifs with hA hB hC
    · exact ih acc h1 h2 (fun c hc => h3 c (List.mem_cons_of_mem _ hc))
    · refine ih (acc ++ [comp]) ?_ ?_ (fun c hc => h3 c (List.mem_cons_of_mem _ hc))
      · by_cases hd : comp = ddot
        · subst hd
          rcases hB with hB1 | hB2 | hB3
          · exact absurd rfl hB1
          · rw [hB2.2]
            exact allDots_dotsPre (allDots_append1 trivial)
          · exact allDots_dotsPre (allDots_append1 (dotsPre_getLast_ddot h1 hB3))
        · exact dotsPre_append1 h1 hd
      · intro c hc
        rcases List.mem_append.mp hc with hc1 | hc2
        · exact h2 c hc1
        · have hcc : c = comp := by simpa using hc2
          subst hcc
          push_neg at hA
          exact ⟨hA.1, hA.2, h3 c (List.mem_cons_self _ _)⟩
    · refine ih acc.dropLast (dotsPre_dropLast h1) ?_
        (fun c hc => h3 c (List.mem_cons_of_mem _ hc))
      exact fun c hc => h2 c (mem_dropLast hc)
    · exact ih acc h1 h2 (fun c hc => h3 c (List.mem_cons_of_mem _ hc))

/-- On a list of ordinary components (no `".."`) the collapsing loop appends
them all unchanged. -/
theorem collapseGo_noDots (h : Bool) (cs : List (List Char)) :
    ∀ acc, NoDots cs → (∀ c ∈ cs, c ≠ [] ∧ c ≠ dotC) →
      collapseGo h acc cs = acc ++ cs := by
  induction cs with
  | nil => intro acc _ _; simp [collapseGo]
  | cons c cs ih =>
    intro acc hnd hm
    have hA : ¬ (c = [] ∨ c = dotC) := by
      rcases hm c (List.mem_cons_self _ _) with ⟨h1, h2⟩
      simp [h1, h2]
    have hB : c ≠ ddot ∨ (h = false ∧ acc = []) ∨ acc.getLast? = some ddot := Or.inl hnd.1
    rw [collapseGo, if_neg hA, if_pos hB,
      ih (acc ++ [c]) hnd.2 (fun d hd => hm d (List.mem_cons_of_mem _ hd)),
      List.append_assoc]
    rfl

/-- A component list produced by the collapsing loop is a fixed point of the
relative-path collapsing loop. -/
theorem collapseGo_fixed (cs : List (List Char)) :
    ∀ acc, DotsPre cs → (∀ c ∈ cs, c ≠ [] ∧ c ≠ dotC) → AllDots acc →
      collapseGo false acc cs = acc ++ cs := by
  induction cs with
  | nil => intro acc _ _ _; simp [collapseGo]
  | cons c cs ih =>
    intro acc hdp hm hall
    have hA : ¬ (c = [] ∨ c = dotC) := by
      rcases hm c (List.mem_cons_self _ _) with ⟨h1, h2⟩
      simp [h1, h2]
    rcases hdp with ⟨hc, hpre⟩ | ⟨hc, hnd⟩
    · have hB : c ≠ ddot ∨ ((false : Bool) = false ∧ acc = []) ∨
          acc.getLast? = some ddot := by
        by_cases hacc : acc = []
        · exact Or.inr (Or.inl ⟨rfl, hacc⟩)
        · exact Or.inr (Or.inr (allDots_getLast hall hacc))
      rw [collapseGo, if_neg hA, if_pos hB]
      subst hc
      rw [ih (acc ++ [ddot]) hpre (fun d hd => hm d (List.mem_cons_of_mem _ hd))
          (allDots_append1 hall),
        List.append_assoc]
      rfl
    · have hB : c ≠ ddot ∨ ((false : Bool) = false ∧ acc = []) ∨
          acc.getLast? = some ddot := Or.inl hc
      rw [collapseGo, if_neg hA, if_pos hB,
        collapseGo_noDots false cs (acc ++ [c]) hnd
          (fun d hd => hm d (List.mem_cons_of_mem _ hd)),
        List.append_assoc]
      rfl

/-- Elements of the chunks produced by `splitOnP` never satisfy the
splitting predicate. -/
theorem splitOnP_not_sat (p : Char → Bool) (l : List Char) :
    ∀ c ∈ l.splitOnP p, ∀ x ∈ c, ¬ p x = true := by
  induction l with
  | nil =>
    intro c hc x hx
    rw [List.splitOnP_nil] at hc
    have : c = [] := by simpa using hc
    subst this
    simp at hx
  | cons a as ih =>
    intro c hc x hx
    rw [List.splitOnP_cons] at hc
    by_cases ha : p a
    · rw [if_pos ha] at hc
      rcases List.mem_cons.mp hc with h1 | h2
      · subst h1; simp at hx
      · exact ih c h2 x hx
    · rw [if_neg ha] at hc
      cases hsp : as.splitOnP p with
      | nil => exact absurd hsp (List.splitOnP_ne_nil p as)
      | cons h0 t0 =>
        rw [hsp] at hc
        simp only [List.modifyHead] at hc
        rcases List.mem_cons.mp hc with h1 | h2
        · subst h1
          rcases List.mem_cons.mp hx with hx1 | hx2
          · subst hx1; exact ha
          · exact ih h0 (by rw [hsp]; exact List.mem_cons_self _ _) x hx2
        · exact ih c (by rw [hsp]; exact List.mem_cons_of_mem _ h2) x hx

/-- No chunk of `splitOn '/'` contains the separator. -/
theorem splitOn_not_mem_sep (l : List Char) : ∀ c ∈ l.splitOn '/', '/' ∉ c := by
  intro c hc hx
  have h := splitOnP_not_sat (· == '/') l c (by simpa [List.splitOn] using hc) '/' hx
  simp at h

theorem intercalate_nil_sep : ['/'].intercalate ([] : List (List Char)) = [] := by
  simp [List.intercalate]

theorem intercalate_cons_sep (c : List Char) (rest : List (List Char)) :
    ∃ t, ['/'].intercalate (c :: rest) = c ++ t := by
  cases rest with
  | nil => exact ⟨[], by simp [List.intercalate]⟩
  | cons d ds =>
    refine ⟨'/' :: ['/'].intercalate (d :: ds), ?_⟩
    simp [List.intercalate, List.intersperse_cons_cons]

/-- The separator-joined list of nonempty separator-free components is
nonempty and does not start with the separator. -/
theorem intercalate_head_ne_sep (cs : List (List Char)) (hne : cs ≠ [])
    (hmem : ∀ c ∈ cs, c ≠ [] ∧ '/' ∉ c) :
    ¬ (['/'].isPrefixOf (['/'].intercalate cs) = true) ∧ ['/'].intercalate cs ≠ [] := by
  cases cs with
  | nil => exact absurd rfl hne
  | cons c rest =>
    obtain ⟨t, ht⟩ := intercalate_cons_sep c rest
    rcases hmem c (List.mem_cons_self _ _) with ⟨hc1, hc2⟩
    cases c with
    | nil => exact absurd rfl hc1
    | cons x xs =>
      have hx : ¬ ('/' = x) := by
        intro hxx
        exact hc2 (by rw [← hxx]; exact List.mem_cons_self _ _)
      rw [ht]
      constructor
      · simp [List.isPrefixOf, hx]
      · simp

/-- A nonempty component list satisfying the collapse invariants is a fixed
point of `norm_remote_path` after joining with the separator. -/
theorem norm_join_fixed (cs : List (List Char)) (hne : cs ≠ [])
    (hmem : ∀ c ∈ cs, c ≠ [] ∧ c ≠ dotC ∧ '/' ∉ c) (hdp : DotsPre cs) :
    norm_remote_path (['/'].intercalate cs) = ['/'].intercalate cs := by
  obtain ⟨hnp, hjne⟩ :=
    intercalate_head_ne_sep cs hne (fun c hc => ⟨(hmem c hc).1, (hmem c hc).2.2⟩)
  have hsplit : (['/'].intercalate cs).splitOn '/' = cs :=
    List.splitOn_intercalate cs '/' (fun l hl => (hmem l hl).2.2) hne
  have hslash : initialSlashes (['/'].intercalate cs) = 0 := by
    rw [initialSlashes, if_neg hnp]
  have hfix : collapseGo ((0 : Nat) != 0) [] cs = cs :=
    collapseGo_fixed cs [] hdp (fun c hc => ⟨(hmem c hc).1, (hmem c hc).2.1⟩) trivial
  have hnp2 : normpath (['/'].intercalate cs) = ['/'].intercalate cs := by
    rw [normpath, if_neg hjne]
    simp only [hslash, hsplit, hfix]
    simp [hjne]
  rw [norm_remote_path]
  simp only [hnp2]
  rw [if_neg hnp]

/-- Claim C4 (corrected): `norm_remote_path` is idempotent for every input
that does not begin with exactly two separators (the POSIX reserved case) and
whose normalized form is nonempty (i.e. the input does not normalize to the
filesystem root). -/
theorem claim4_norm_idempotent (p : List Char)
    (h2 : ¬ (['/', '/'].isPrefixOf p ∧ ¬ ['/', '/', '/'].isPrefixOf p))
    (hne : norm_remote_path p ≠ []) :
    norm_remote_path (norm_remote_path p) = norm_remote_path p := by
  by_cases hp : p = []
  · subst hp; decide
  by_cases hsl : ['/'].isPrefixOf p = true
  · -- absolute path with a single leading separator
    have hn : initialSlashes p = 1 := by rw [initialSlashes, if_pos hsl, if_neg h2]
    have hinv := collapseGo_inv ((1 : Nat) != 0) (p.splitOn '/') [] trivial
      (by intro c hc; simp at hc) (splitOn_not_mem_sep p)
    generalize hcs : collapseGo ((1 : Nat) != 0) [] (p.splitOn '/') = cs at hinv
    obtain ⟨hdp, hmm⟩ := hinv
    have hnorm : normpath p = List.replicate 1 '/' ++ ['/'].intercalate cs := by
      rw [normpath, if_neg hp]
      simp only [hn, hcs]
      rw [if_neg (by simp)]
    have hnr : norm_remote_path p = ['/'].intercalate cs := by
      rw [norm_remote_path]
      simp only [hnorm]
      rw [if_pos (by simp [List.isPrefixOf])]
      simp
    by_cases hc0 : cs = []
    · subst hc0
      rw [hnr, intercalate_nil_sep] at hne
      exact absurd rfl hne
    · rw [hnr]
      exact norm_join_fixed cs hc0 hmm hdp
  · -- relative path
    have hn : initialSlashes p = 0 := by rw [initialSlashes, if_neg hsl]
    have hinv := collapseGo_inv ((0 : Nat) != 0) (p.splitOn '/') [] trivial
      (by intro c hc; simp at hc) (splitOn_not_mem_sep p)
    generalize hcs : collapseGo ((0 : Nat) != 0) [] (p.splitOn '/') = cs at hinv
    obtain ⟨hdp, hmm⟩ := hinv
    by_cases hc0 : cs = []
    · have hnorm : normpath p = dotC := by
        rw [normpath, if_neg hp]
        simp only [hn, hcs, hc0]
        simp [intercalate_nil_sep]
      have hnr : norm_remote_path p = dotC := by
        rw [norm_remote_path]
        simp only [hnorm]
        rw [if_neg (by decide)]
      rw [hnr]
      decide
    · obtain ⟨hnp0, hjne⟩ :=
        intercalate_head_ne_sep cs hc0 (fun c hc => ⟨(hmm c hc).1, (hmm c hc).2.2⟩)
      have hnorm : normpath p = ['/'].intercalate cs := by
        rw [normpath, if_neg hp]
        simp only [hn, hcs]
        simp [hjne]
      have hnr : norm_remote_path p = ['/'].intercalate cs := by
        rw [norm_remote_path]
        simp only [hnorm]
        rw [if_neg hnp0]
      rw [hnr]
      exact norm_join_fixed cs hc0 hmm hdp

/-- Claim C4 counterexample: normalization is not idempotent on `"//a"` —
`posixpath.normpath` keeps exactly two leading slashes, so one application
gives `"/a"` and a second application gives `"a"`. -/
theorem claim4_counterexample :
    norm_remote_path (norm_remote_path (chars "//a")) ≠ norm_remote_path (chars "//a") := by
  decide

/-- Witness for `claim4_norm_idempotent` at the concrete input `"/a/b"`. -/
theorem claim4_witness :
    (¬ (['/', '/'].isPrefixOf (chars "/a/b") ∧ ¬ ['/', '/', '/'].isPrefixOf (chars "/a/b"))) ∧
      norm_remote_path (chars "/a/b") ≠ [] ∧
      norm_remote_path (norm_remote_path (chars "/a/b")) = norm_remote_path (chars "/a/b") :=
  ⟨by decide, by decide, claim4_norm_idempotent (chars "/a/b") (by decide) (by decide)⟩

/-- The matching loop over paired segments computes `all` of the per-segment
matcher over the zipped segment lists. -/
theorem matchSegs_eq_zip_all (ts : List (List Char)) :
    ∀ fs, matchSegs ts fs = ((ts.zip fs).all fun pr => segMatch pr.1 pr.2) := by
  induction ts with
  | nil => intro fs; simp [matchSegs]
  | cons t ts ih =>
    intro fs
    cases fs with
    | nil => simp [matchSegs]
    | cons f fs =>
      rw [matchSegs]
      by_cases h : segMatch t f = true
      · simp [h, ih]
      · simp [h]

/-- Claim C5: the matcher is directionally asymmetric — a `none` pattern
matches everything; otherwise, after dropping one trailing empty segment from
each side, only the paired segments of the shorter list are examined, a
mismatch yields `false` and exhausting the shorter list yields `true`; in
particular the pattern `"p1/p2/"` matches the shorter path `"p1/"`. -/
theorem claim5_matcher_direction :
    (∀ fp, is_path_matched none fp = true) ∧
    (∀ t fp, is_path_matched (some t) fp =
      ((dropTrailingEmpty (t.splitOn '/')).zip (dropTrailingEmpty (fp.splitOn '/'))).all
        (fun pr => segMatch pr.1 pr.2)) ∧
    is_path_matched (some (chars "p1/p2/")) (chars "p1/") = true := by
  refine ⟨fun fp => rfl, fun t fp => ?_, by decide⟩
  exact matchSegs_eq_zip_all _ _

/-- Claim C6: the per-segment wildcard rules — `%text%` matches exactly the
segments containing `text`, `%text` those ending with `text`, `text%` those
starting with `text`, and a segment with no leading or trailing `%` exactly
the segments equal to it. -/
theorem claim6_wildcard_rules :
    (∀ text fseg : List Char,
      (segMatch ('%' :: (text ++ ['%'])) fseg = true ↔ text <:+: fseg)) ∧
    (∀ text fseg : List Char, text.getLast? ≠ some '%' →
      (segMatch ('%' :: text) fseg = true ↔ text <:+ fseg)) ∧
    (∀ text fseg : List Char, text.head? ≠ some '%' →
      (segMatch (text ++ ['%']) fseg = true ↔ text <+: fseg)) ∧
    (∀ tseg fseg : List Char, tseg.head? ≠ some '%' → tseg.getLast? ≠ some '%' →
      (segMatch tseg fseg = true ↔ tseg = fseg)) := by
  refine ⟨?_, ?_, ?_, ?_⟩
  · intro text fseg
    have h2 : ('%' :: (text ++ ['%'])).getLast? = some '%' := by
      rw [show ('%' :: (text ++ ['%'])) = ('%' :: text) ++ ['%'] by simp]
      exact List.getLast?_concat _
    rw [segMatch, if_pos ⟨rfl, h2⟩]
    have h3 : (('%' :: (text ++ ['%'])).drop 1).dropLast = text := by
      simp [List.dropLast_concat]
    rw [h3]
    exact decide_eq_true_iff
  · intro text fseg hlast
    cases text with
    | nil =>
      rw [segMatch, if_pos ⟨rfl, by decide⟩]
      simp
    | cons a as =>
      have hl : ¬ (('%' :: a :: as).head? = some '%' ∧
          ('%' :: a :: as).getLast? = some '%') := by
        intro hcon
        rw [List.getLast?_cons_cons] at hcon
        exact hlast hcon.2
      rw [segMatch, if_neg hl,
        if_pos (show ('%' :: a :: as).head? = some '%' from rfl)]
      exact List.isSuffixOf_iff_suffix
  · intro text fseg hhead
    cases text with
    | nil =>
      rw [segMatch, if_pos ⟨rfl, by decide⟩]
      simp
    | cons a as =>
      have ha : a ≠ '%' := fun hc => hhead (by simp [hc])
      have hc1 : ¬ (((a :: as) ++ ['%']).head? = some '%' ∧
          ((a :: as) ++ ['%']).getLast? = some '%') := by
        intro hcon
        have hae : a = '%' := by simpa using hcon.1
        exact ha hae
      have hc2 : ¬ (((a :: as) ++ ['%']).head? = some '%') := by
        intro hcon
        have hae : a = '%' := by simpa using hcon
        exact ha hae
      have hc3 : ((a :: as) ++ ['%']).getLast? = some '%' := List.getLast?_concat _
      rw [segMatch, if_neg hc1, if_neg hc2, if_pos hc3, List.dropLast_concat]
      exact List.isPrefixOf_iff_prefix
  · intro tseg fseg hh hl
    rw [segMatch, if_neg (fun hcon => hh hcon.1), if_neg hh, if_neg hl]
    simp

/-- Witness for `claim6_wildcard_rules` at concrete segments: `"%p2"` against
`"-p2"` (suffix rule). -/
theorem claim6_witness :
    ((chars "p2").getLast? ≠ some '%') ∧
      (segMatch ('%' :: (chars "p2")) (chars "-p2") = true ↔ chars "p2" <:+ chars "-p2") :=
  ⟨by decide, claim6_wildcard_rules.2.1 (chars "p2") (chars "-p2") (by decide)⟩

/-- If `c` occurs in `l`, `dropWhile (· ≠ c)` reaches it: the remainder starts
with `c`. -/
theorem dropWhile_ne_of_mem {c : Char} {l : List Char} (h : c ∈ l) :
    ∃ t, l.dropWhile (· ≠ c) = c :: t := by
  induction l with
  | nil => simp at h
  | cons a as ih =>
    by_cases ha : a = c
    · subst ha
      exact ⟨as, by simp [List.dropWhile_cons]⟩
    · have hm : c ∈ as := by
        rcases List.mem_cons.mp h with h1 | h2
        · exact absurd h1.symm ha
        · exact h2
      obtain ⟨t, ht⟩ := ih hm
      refine ⟨t, ?_⟩
      rw [List.dropWhile_cons, if_pos (decide_eq_true ha), ht]

/-- Unfolding of `split_storage` with normalization enabled, exposing the
provider scan. -/
theorem split_storage_unfold (p dflt : List Char) (env : Option (List Char)) :
    split_storage p dflt true env =
      match (knownOf env).find?
          (fun provider => (provider ++ ['/']).isPrefixOf (norm_remote_path p)) with
      | some _ => ((norm_remote_path p).takeWhile (· ≠ '/'),
          ((norm_remote_path p).dropWhile (· ≠ '/')).drop 1)
      | none => (dflt, norm_remote_path p) := by
  rw [split_storage]
  rfl

/-- Claim C3 counterexample: splitting `"foo/bar"` (no known provider prefix)
returns the default provider, so re-joining yields
`"osfstorage/foo/bar"`, which is not the normalized form `"foo/bar"` of the
input. -/
theorem claim3_counterexample :
    (split_storage (chars "foo/bar")).1 ++ '/' :: (split_storage (chars "foo/bar")).2 ≠
      norm_remote_path (chars "foo/bar") := by
  decide

/-- Claim C3 (corrected): for every path, default provider and provider list,
either some known provider matched and re-joining provider + `/` +
relative-path reconstructs the normalized path, or no provider matched and
the result is the default provider paired with the normalized path itself
(so the relative component alone, not the re-joined string, equals the
normalized input). -/
theorem claim3_split_rejoin (p dflt : List Char) (env : Option (List Char)) :
    (split_storage p dflt true env).1 ++ '/' :: (split_storage p dflt true env).2 =
        norm_remote_path p ∨
      split_storage p dflt true env = (dflt, norm_remote_path p) := by
  rw [split_storage_unfold]
  cases hf : (knownOf env).find?
      (fun provider => (provider ++ ['/']).isPrefixOf (norm_remote_path p)) with
  | none => exact Or.inr rfl
  | some prov =>
    left
    have hpred : ((prov ++ ['/']).isPrefixOf (norm_remote_path p)) = true := by
      have hh := List.find?_some hf
      simpa using hh
    obtain ⟨t, ht⟩ := List.isPrefixOf_iff_prefix.mp hpred
    have hmem : '/' ∈ norm_remote_path p := by
      rw [← ht]; simp
    obtain ⟨t2, ht2⟩ := dropWhile_ne_of_mem hmem
    rw [ht2]
    have hdrop1 : ('/' :: t2).drop 1 = t2 := rfl
    rw [hdrop1, ← ht2]
    exact List.takeWhile_append_dropWhile _ _

/-- `takeWhile`/`dropWhile` at the first separator of `a ++ '/' :: b` when `a`
is separator-free. -/
theorem takeWhile_sep_split (a b : List Char) (h : '/' ∉ a) :
    (a ++ '/' :: b).takeWhile (· ≠ '/') = a ∧
      (a ++ '/' :: b).dropWhile (· ≠ '/') = '/' :: b := by
  induction a with
  | nil =>
    constructor <;> simp [List.takeWhile_cons, List.dropWhile_cons]
  | cons x xs ih =>
    have hx : x ≠ '/' := fun hc => h (by simp [hc])
    have hih := ih (fun hc => h (List.mem_cons_of_mem _ hc))
    constructor
    · rw [List.cons_append, List.takeWhile_cons, if_pos (decide_eq_true hx), hih.1]
    · rw [List.cons_append, List.dropWhile_cons, if_pos (decide_eq_true hx), hih.2]

/-- Claim C7 counterexample: with the environment override `"a/b"` (a provider
name containing a separator) and path `"a/b/c"`, the scan matches but the
returned pair is `path.split('/', 1) = ("a", "b/c")`, not the matched
provider `"a/b"` with remainder `"c"`. -/
theorem claim7_counterexample :
    split_storage (chars "a/b/c") (chars "osfstorage") true (some (chars "a/b")) =
        (chars "a", chars "b/c") ∧
      split_storage (chars "a/b/c") (chars "osfstorage") true (some (chars "a/b")) ≠
        (chars "a/b", chars "c") := by
  decide

/-- Claim C7 (corrected): provided every scanned provider name is
separator-free (as all four built-in names are), `split_storage` returns the
first provider of the scanned list (the environment override if present,
else the built-in list) whose name plus separator prefixes the normalized
path, together with the remainder after that prefix; with no match it
returns the default provider and the normalized path unchanged. -/
theorem claim7_split_scan (p dflt : List Char) (env : Option (List Char))
    (hsep : ∀ prov ∈ knownOf env, '/' ∉ prov) :
    split_storage p dflt true env =
      match (knownOf env).find?
          (fun provider => (provider ++ ['/']).isPrefixOf (norm_remote_path p)) with
      | some prov => (prov, (norm_remote_path p).drop (prov.length + 1))
      | none => (dflt, norm_remote_path p) := by
  rw [split_storage_unfold]
  cases hf : (knownOf env).find?
      (fun provider => (provider ++ ['/']).isPrefixOf (norm_remote_path p)) with
  | none => rfl
  | some prov =>
    have hpred : ((prov ++ ['/']).isPrefixOf (norm_remote_path p)) = true := by
      have hh := List.find?_some hf
      simpa using hh
    have hprovmem : prov ∈ knownOf env := List.mem_of_find?_eq_some hf
    have hprovsep : '/' ∉ prov := hsep prov hprovmem
    obtain ⟨t, ht⟩ := List.isPrefixOf_iff_prefix.mp hpred
    have ht2 : norm_remote_path p = prov ++ '/' :: t := by
      rw [← ht]; simp
    obtain ⟨htw, hdw⟩ := takeWhile_sep_split prov t hprovsep
    have hdrop : (prov ++ '/' :: t).drop (prov.length + 1) = t := by
      rw [show prov ++ '/' :: t = (prov ++ ['/']) ++ t by simp,
        show prov.length + 1 = (prov ++ ['/']).length by simp]
      exact List.drop_left _ _
    rw [ht2, htw, hdw]
    show (prov, ('/' :: t).drop 1) = (prov, (prov ++ '/' :: t).drop (prov.length + 1))
    rw [hdrop]
    rfl

/-- Witness for `claim7_split_scan` at the concrete input
`"osfstorage/foo/bar"` with the built-in provider list. -/
theorem claim7_witness :
    (∀ prov ∈ knownOf none, '/' ∉ prov) ∧
      split_storage (chars "osfstorage/foo/bar") (chars "osfstorage") true none =
        (chars "osfstorage", chars "foo/bar") := by
  refine ⟨by decide, ?_⟩
  rw [claim7_split_scan (chars "osfstorage/foo/bar") (chars "osfstorage") none (by decide)]
  decide

/-- When a file with the requested normalized path is found, the fetch loop
handles exactly the first such file: with `--update` and no `--force` the
write is skipped when the remote md5 equals the local checksum, otherwise the
file is written, and in either case the loop stops. -/
theorem fetchLoop_found (le fo up : Bool) (rp md5 : List Char) (files : List RFile)
    (f : RFile) (h : files.find? (fun g => norm_remote_path g.path == rp) = some f) :
    fetchLoop le fo up rp md5 files =
      if le = true ∧ fo = false ∧ up = true ∧ f.md5 = some md5 then [FEvent.printMatches]
      else [FEvent.write] := by
  induction files with
  | nil => simp at h
  | cons g gs ih =>
    by_cases hg : norm_remote_path g.path = rp
    · have hfg : g = f := by
        rw [List.find?_cons_of_pos _ (by simpa using hg)] at h
        simpa using h
      subst hfg
      rw [fetchLoop, if_pos hg]
    · have h2 : gs.find? (fun g => norm_remote_path g.path == rp) = some f := by
        rw [List.find?_cons_of_neg _ (by simpa using hg)] at h
        exact h
      rw [fetchLoop, if_neg hg]
      exact ih h2

/-- Claim C8 counterexample: with the local file existing and `--force` set
but no matching remote file, nothing is written — so "if force is set the
local file is always overwritten" fails as a universal statement. -/
theorem claim8_counterexample :
    fetchEvents true true false [] (chars "a.txt") (chars "h") = [FEvent.network] ∧
      FEvent.write ∉ fetchEvents true true false [] (chars "a.txt") (chars "h") := by
  decide

/-- Claim C8 (corrected): when the local destination exists — with neither
force nor update the invocation exits with the "not overwriting" failure
before any network access and performs no write; when force is set the file
is overwritten whenever a matching remote file exists; when update is set
without force, for the first matching remote file the write is skipped when
its md5 equals the locally recomputed hash and performed when it differs. -/
theorem claim8_fetch_policy :
    (∀ (files : List RFile) (rp md5 : List Char),
      fetchEvents true false false files rp md5 = [FEvent.exitNotOverwriting]) ∧
    (∀ (localExists update : Bool) (files : List RFile) (rp md5 : List Char) (f : RFile),
      files.find? (fun g => norm_remote_path g.path == rp) = some f →
      fetchEvents localExists true update files rp md5 = [FEvent.network, FEvent.write]) ∧
    (∀ (files : List RFile) (rp md5 : List Char) (f : RFile),
      files.find? (fun g => norm_remote_path g.path == rp) = some f →
      ((f.md5 = some md5 →
        fetchEvents true false true files rp md5 = [FEvent.network, FEvent.printMatches]) ∧
      (f.md5 ≠ some md5 →
        fetchEvents true false true files rp md5 = [FEvent.network, FEvent.write]))) := by
  refine ⟨fun files rp md5 => rfl, ?_, ?_⟩
  · intro le up files rp md5 f hf
    rw [fetchEvents, if_neg (by simp), fetchLoop_found le true up rp md5 files f hf,
      if_neg (by simp)]
  · intro files rp md5 f hf
    constructor
    · intro hmd
      rw [fetchEvents, if_neg (by simp), fetchLoop_found true false true rp md5 files f hf,
        if_pos ⟨rfl, rfl, rfl, hmd⟩]
    · intro hmd
      rw [fetchEvents, if_neg (by simp), fetchLoop_found true false true rp md5 files f hf,
        if_neg (by simp [hmd])]

/-- Witness for `claim8_fetch_policy`: a store with the single file `/a`
(md5 `h`), forced fetch of `a` writes the file. -/
theorem claim8_witness :
    ([(⟨chars "/a", some (chars "h")⟩ : RFile)].find?
        (fun g => norm_remote_path g.path == chars "a") =
          some ⟨chars "/a", some (chars "h")⟩) ∧
      fetchEvents true true false [⟨chars "/a", some (chars "h")⟩] (chars "a") (chars "h") =
        [FEvent.network, FEvent.write] :=
  ⟨by decide,
    claim8_fetch_policy.2.1 true false [⟨chars "/a", some (chars "h")⟩] (chars "a")
      (chars "h") ⟨chars "/a", some (chars "h")⟩ (by decide)⟩

/-- Claim C9 counterexample: two files whose paths `/x` and `x` both
normalize to `x` are BOTH acted on by the remove loop — the operation is not
applied to at most one matching entry. -/
theorem claim9_counterexample :
    removeLoop (chars "x") [chars "/x", chars "x"] = [chars "/x", chars "x"] ∧
      (removeLoop (chars "x") [chars "/x", chars "x"]).length = 2 := by
  decide

/-- Claim C9 (corrected): for move and remove the source is located by exact
normalized-path equality among the current file list of the provider, the
operation is applied to EVERY matching entry (the loops have no break), and
when no entry matches the operation completes silently with no call made. -/
theorem claim9_match_semantics :
    (∀ rp files, removeLoop rp files = files.filter (fun q => norm_remote_path q == rp)) ∧
    (∀ rp files, moveLoop rp files = files.filter (fun q => norm_remote_path q == rp)) ∧
    removeLoop (chars "zz") [chars "/a", chars "b"] = [] ∧
    moveLoop (chars "zz") [chars "/a", chars "b"] = [] := by
  refine ⟨?_, ?_, by decide, by decide⟩
  · intro rp files
    induction files with
    | nil => rfl
    | cons q qs ih =>
      by_cases h : norm_remote_path q = rp
      · simp [removeLoop, List.filter_cons, h, ih]
      · simp [removeLoop, List.filter_cons, h, ih]
  · intro rp files
    induction files with
    | nil => rfl
    | cons q qs ih =>
      by_cases h : norm_remote_path q = rp
      · simp [moveLoop, List.filter_cons, h, ih]
      · simp [moveLoop, List.filter_cons, h, ih]

/-- `drop` at the index of the first separator starts with the separator. -/
theorem drop_indexOf_sep {l : List Char} (h : '/' ∈ l) :
    l.drop (l.indexOf '/') = '/' :: l.drop (l.indexOf '/' + 1) := by
  have hlt : l.indexOf '/' < l.length := List.indexOf_lt_length.mpr h
  rw [List.drop_eq_getElem_cons hlt, List.getElem_indexOf hlt]

/-- Claim C10: a listing base path with no separator after stripping an
optional leading slash makes the derivation raise (`ValueError` from
`index('/')`, modelled as `none`); otherwise the provider is the first
segment and the derived pattern starts at the first separator and is
extended, when necessary, to end with a separator. -/
theorem claim10_list_base_path (base_path : List Char) :
    ('/' ∉ stripSlash base_path → listDerive base_path = none) ∧
    ('/' ∈ stripSlash base_path →
      ∃ pat, listDerive base_path =
          some ((stripSlash base_path).takeWhile (· ≠ '/'), pat) ∧
        pat.head? = some '/' ∧ pat.getLast? = some '/' ∧
        (pat = (stripSlash base_path).drop ((stripSlash base_path).indexOf '/') ∨
          pat = (stripSlash base_path).drop ((stripSlash base_path).indexOf '/') ++ ['/'])) := by
  constructor
  · intro h
    rw [listDerive, if_neg h]
  · intro h
    rw [listDerive, if_pos h]
    have hdrop := drop_indexOf_sep h
    by_cases hl : ((stripSlash base_path).drop
        ((stripSlash base_path).indexOf '/')).getLast? = some '/'
    · refine ⟨_, by rw [if_pos hl], ?_, hl, Or.inl rfl⟩
      rw [hdrop]
      rfl
    · refine ⟨_, by rw [if_neg hl], ?_, List.getLast?_concat _, Or.inr rfl⟩
      rw [hdrop]
      rfl

/-- Witness for `claim10_list_base_path`: the bare provider name
`"osfstorage"` has no separator, so the derivation fails. -/
theorem claim10_witness :
    ('/' ∉ stripSlash (chars "osfstorage")) ∧ listDerive (chars "osfstorage") = none :=
  ⟨by decide, (claim10_list_base_path (chars "osfstorage")).1 (by decide)⟩

/-- Claim C1 (code bug): the move-target classification splits a target with
an internal separator at the FIRST separator — `c/c/newfolder` is classified
as folder `c` with rename `c/newfolder` — whereas the claim and the
repository test `test_move_folder_to_sub_newfolder` require the split at the
LAST separator (folder `c/c`, rename `newfolder`). -/
theorem claim1_move_classification :
    moveClassify (chars "c/c/newfolder") = (some (chars "c"), some (chars "c/newfolder")) ∧
      moveClassify (chars "c/c/newfolder") ≠ (some (chars "c/c"), some (chars "newfolder")) := by
  decide

/-- Claim C2 (code bug): ensuring `a/new1/new2` when only folder `a` exists
issues a SINGLE creation call, with the compound name `new1/new2` under `a`,
instead of one call per missing segment (`new1` under `a`, then `new2` under
it) as the claim and the repository test `test_make_recursive_sub_folder`
require. -/
theorem claim2_ensure_compound_create :
    ensure_folder [chars "/a"] (chars "a/new1/new2") =
        (chars "a/new1/new2", [(some (chars "a"), chars "new1/new2")]) ∧
      (ensure_folder [chars "/a"] (chars "a/new1/new2")).2.length = 1 := by
  have h : ensure_folder [chars "/a"] (chars "a/new1/new2") =
      (chars "a/new1/new2", [(some (chars "a"), chars "new1/new2")]) := by
    rw [ensure_folder_sep _ _ (by decide) (by decide)]
    have ht : (chars "a/new1/new2").take ((chars "a/new1/new2").indexOf '/') = chars "a" := by
      decide
    rw [ht, ensure_folder_found _ _ (by decide)]
    decide
  exact ⟨h, by rw [h]; rfl⟩
